import Mathlib

/-!
Verification of the multiprocessing word-frequency counter (src/Lab1/main.py).

The pipeline: `split_text` tokenizes the input on whitespace and partitions the
token list into `n` contiguous segments; `count_words` builds a frequency table
(a Python `Counter`, i.e. an insertion-ordered map from token to count) for one
segment; the partial tables are merged with `Counter.update` (pointwise
addition of counts) and the merged table is sorted by the key
`(-count, token)` ascending before being written out.

Frequency tables are embedded as association lists `List (String × Nat)` with
insertion-ordered keys, exactly mirroring a Python dict/Counter: updating an
existing key rewrites its slot in place, a new key is appended at the end.
-/

/-- Model of Python `str.split()` (no separator argument) at the character
level: split on maximal runs of whitespace, producing no empty tokens.
`acc` holds the characters of the current token, in reverse. -/
def splitWsAux : List Char → List Char → List String
  | [], [] => []
  | [], acc => [String.mk acc.reverse]
  | c :: cs, acc =>
    if c.isWhitespace then
      if acc.isEmpty then splitWsAux cs []
      else String.mk acc.reverse :: splitWsAux cs []
    else splitWsAux cs (c :: acc)

/-- `text.split()` from line 39 of main.py. -/
def tokenize (text : String) : List String := splitWsAux text.data []

/-- Python list slice `words[start:stop]` for `0 ≤ start ≤ stop`
(out-of-range indices are clamped). -/
def pySlice (words : List String) (start stop : Nat) : List String :=
  (words.take stop).drop start

/-- The loop body of `split_text` (lines 40-49 of main.py), acting on the
already tokenized word list: `segment_size = len(words) // num_segments`;
segment `i` is `words[i*size : (i+1)*size]`, except the last segment which is
`words[i*size :]` (slice end `None`). -/
def splitWords (words : List String) (n : Nat) : List (List String) :=
  let size := words.length / n
  (List.range n).map fun i =>
    if i = n - 1 then words.drop (i * size)
    else pySlice words (i * size) ((i + 1) * size)

/-- `split_text(text, num_segments)` from main.py for a positive segment
count. -/
def split_text (text : String) (n : Nat) : List (List String) :=
  splitWords (tokenize text) n

/-- `split_text` over an arbitrary integer segment count, with Python's
exception behaviour made explicit: `len(words) // num_segments` raises
`ZeroDivisionError` when `num_segments == 0`; for negative `num_segments`,
`range(num_segments)` is empty, so the loop builds no segments at all.
Python `//` is floor division (`Int.fdiv`). -/
def split_textE (text : String) (n : Int) : Except String (List (List String)) :=
  if n = 0 then Except.error "ZeroDivisionError"
  else
    let words := tokenize text
    let size : Nat := ((words.length : Int).fdiv n).toNat
    Except.ok ((List.range n.toNat).map fun (i : Nat) =>
      if (i : Int) = n - 1 then words.drop (i * size)
      else pySlice words (i * size) ((i + 1) * size))

/-- A Python `Counter`/dict from tokens to counts: an association list whose
keys are unique and kept in insertion order. -/
abbrev FreqTable := List (String × Nat)

/-- Dict read with default 0: `counter[t]` for a `Counter`. -/
def ctGet : FreqTable → String → Nat
  | [], _ => 0
  | (k, v) :: rest, t => if k = t then v else ctGet rest t

/-- `counter[t] += m` on a Python dict: rewrite the existing slot of `t` in
place, or append `(t, m)` at the end if `t` is a new key. -/
def ctIncr : FreqTable → String → Nat → FreqTable
  | [], t, m => [(t, m)]
  | (k, v) :: rest, t, m =>
    if k = t then (k, v + m) :: rest else (k, v) :: ctIncr rest t m

/-- `Counter(segment)` from line 61 of main.py: count each word of the
segment in order. -/
def count_words (segment : List String) : FreqTable :=
  segment.foldl (fun acc w => ctIncr acc w 1) []

/-- `a.update(b)` on Counters (line 121 of main.py): add each entry of `b`
into `a`, in `b`'s key order. -/
def ctUpdate (a b : FreqTable) : FreqTable :=
  b.foldl (fun acc kv => ctIncr acc kv.1 kv.2) a

/-- The merge loop of lines 119-121 of main.py: start from `Counter()` and
`update` with each partial table in turn. -/
def mergeAll (tables : List FreqTable) : FreqTable :=
  tables.foldl ctUpdate []

/-- Total weight a table's entries assign to token `t` (equals `ctGet b t`
when the keys of `b` are unique). -/
def entrySum (b : FreqTable) (t : String) : Nat :=
  (b.map (fun kv => if kv.1 = t then kv.2 else 0)).sum

/-- The key list of a frequency table. -/
def ctKeys (c : FreqTable) : List String := c.map Prod.fst

/-- Python's `<=` between strings, at the character-list level: lexicographic
comparison by code point, shorter prefix first. -/
def charListLe : List Char → List Char → Bool
  | [], _ => true
  | _ :: _, [] => false
  | a :: as, b :: bs =>
    if a.toNat < b.toNat then true
    else if b.toNat < a.toNat then false
    else charListLe as bs

/-- Python's `s <= t` on strings: code-point lexicographic order. -/
def strLe (s t : String) : Prop := charListLe s.data t.data = true

instance strLe.instDecidable : DecidableRel strLe := fun s t =>
  inferInstanceAs (Decidable (charListLe s.data t.data = true))

/-- The comparison induced by Python's `sorted(..., key=lambda x: (-x[1], x[0]))`
(line 126 of main.py): tuples compare lexicographically, so
`(-c₁, t₁) ≤ (-c₂, t₂)` iff `c₁ > c₂`, or `c₁ = c₂` and `t₁ ≤ t₂`. -/
def rankLE (a b : String × Nat) : Prop :=
  b.2 < a.2 ∨ (a.2 = b.2 ∧ strLe a.1 b.1)

instance rankLE.instDecidable : DecidableRel rankLE := fun a b =>
  inferInstanceAs (Decidable (b.2 < a.2 ∨ (a.2 = b.2 ∧ strLe a.1 b.1)))

/-- `sorted(items, key=lambda x: (-x[1], x[0]))`: CPython's `sorted` is a
comparison sort under the key order; since `rankLE` is a total order that is
antisymmetric on the tables it is applied to (their keys are distinct), every
correct sort returns the same list, so a structural insertion sort models it
exactly. -/
def rankSort (c : FreqTable) : List (String × Nat) := c.insertionSort rankLE

/-- `final_count` of main.py (lines 118-121): merge the per-segment tables of
all segments, in segment order. -/
def final_count (text : String) (n : Nat) : FreqTable :=
  mergeAll ((split_text text n).map count_words)

/-- The ranked (token, count) sequence written to output.txt. -/
def rankedOutput (text : String) (n : Nat) : List (String × Nat) :=
  rankSort (final_count text n)

/-- The lines written to output.txt (lines 124-127 of main.py): a fixed
header followed by one line per ranked entry. -/
def outputLines (text : String) (n : Nat) : List String :=
  "Final consolidated word frequency:" ::
    (rankedOutput text n).map (fun p => p.1 ++ ": " ++ toString p.2)

/-- The progress tracker's state: `manager.list([0] * num_segments)`
(line 102 of main.py). -/
def progressInit (n : Nat) : List Nat := List.replicate n 0

/-- `progress_list[index] = 1` (line 63 of main.py). -/
def progressSet (s : List Nat) (i : Nat) : List Nat := s.set i 1

/-- `sum(progress_list)` (line 76 of main.py): the count of completed
segments read by the observer. -/
def progressSnapshot (s : List Nat) : Nat := s.sum

/-! ### The rank order is a total order -/

theorem charListLe_total (a : List Char) : ∀ b, charListLe a b = true ∨ charListLe b a = true := by
  induction a with
  | nil => intro b; left; rfl
  | cons x xs ih =>
    intro b
    cases b with
    | nil => right; rfl
    | cons y ys =>
      simp only [charListLe]
      rcases Nat.lt_trichotomy x.toNat y.toNat with h | h | h
      · left; simp [h]
      · have hx : ¬ x.toNat < y.toNat := by omega
        have hy : ¬ y.toNat < x.toNat := by omega
        rcases ih ys with h2 | h2
        · left; simp [hx, hy, h2]
        · right; simp [hx, hy, h2]
      · right
        simp [h]

theorem charListLe_trans (a : List Char) :
    ∀ b c, charListLe a b = true → charListLe b c = true → charListLe a c = true := by
  induction a with
  | nil => intro b c _ _; rfl
  | cons x xs ih =>
    intro b c hab hbc
    cases b with
    | nil => simp [charListLe] at hab
    | cons y ys =>
      cases c with
      | nil => simp [charListLe] at hbc
      | cons z zs =>
        simp only [charListLe] at hab hbc ⊢
        split_ifs at hab hbc ⊢ with h1 h2 h3 h4 h5 h6 <;>
          first
          | rfl
          | omega
          | (exact ih ys zs hab hbc)

theorem charListLe_antisymm (a : List Char) :
    ∀ b, charListLe a b = true → charListLe b a = true → a = b := by
  induction a with
  | nil =>
    intro b _ hba
    cases b with
    | nil => rfl
    | cons y ys => simp [charListLe] at hba
  | cons x xs ih =>
    intro b hab hba
    cases b with
    | nil => simp [charListLe] at hab
    | cons y ys =>
      simp only [charListLe] at hab hba
      rcases Nat.lt_trichotomy x.toNat y.toNat with h | h | h
      · have hx : ¬ y.toNat < x.toNat := by omega
        simp [h, hx] at hba
      · have hx : ¬ x.toNat < y.toNat := by omega
        have hy : ¬ y.toNat < x.toNat := by omega
        simp only [hx, hy, if_false] at hab hba
        have hn : x.toNat = y.toNat := by omega
        have hxy : x = y := Char.ext (UInt32.ext hn)
        rw [hxy, ih ys hab hba]
      · have hx : ¬ x.toNat < y.toNat := by omega
        simp [h, hx] at hab

theorem strLe_total (s t : String) : strLe s t ∨ strLe t s :=
  charListLe_total s.data t.data

theorem strLe_trans {s t u : String} (h1 : strLe s t) (h2 : strLe t u) : strLe s u :=
  charListLe_trans s.data t.data u.data h1 h2

theorem strLe_antisymm {s t : String} (h1 : strLe s t) (h2 : strLe t s) : s = t :=
  String.ext (charListLe_antisymm s.data t.data h1 h2)

instance rankLE.instIsTotal : IsTotal (String × Nat) rankLE := by
  constructor
  intro a b
  rcases Nat.lt_trichotomy a.2 b.2 with h | h | h
  · right; left; exact h
  · rcases strLe_total a.1 b.1 with hs | hs
    · left; right; exact ⟨h, hs⟩
    · right; right; exact ⟨h.symm, hs⟩
  · left; left; exact h

instance rankLE.instIsTrans : IsTrans (String × Nat) rankLE := by
  constructor
  intro a b c hab hbc
  rcases hab with h1 | ⟨h1, hs1⟩ <;> rcases hbc with h2 | ⟨h2, hs2⟩
  · left; omega
  · left; omega
  · left; omega
  · right; exact ⟨h1.trans h2, strLe_trans hs1 hs2⟩

instance rankLE.instIsAntisymm : IsAntisymm (String × Nat) rankLE := by
  constructor
  intro a b hab hba
  rcases hab with h1 | ⟨h1, hs1⟩ <;> rcases hba with h2 | ⟨h2, hs2⟩ <;>
    try omega
  have ht : a.1 = b.1 := strLe_antisymm hs1 hs2
  exact Prod.ext ht h1

example : tokenize "a b a c b a" = ["a", "b", "a", "c", "b", "a"] := by decide
example : split_text "a b a c b a" 2 = [["a", "b", "a"], ["c", "b", "a"]] := by decide
example : split_text "a b c d e" 3 = [["a"], ["b"], ["c", "d", "e"]] := by decide
example : split_text "a b" 3 = [[], [], ["a", "b"]] := by decide
example : final_count "a b a c b a" 2 = [("a", 3), ("b", 2), ("c", 1)] := by decide
example : rankedOutput "a b a c b a" 2 = [("a", 3), ("b", 2), ("c", 1)] := by decide
example : outputLines "b a" 1 =
    ["Final consolidated word frequency:", "a: 1", "b: 1"] := by decide
example : split_textE "a" (-1) = Except.ok [] := by rfl
example : split_textE "a" 0 = Except.error "ZeroDivisionError" := by rfl

/-! ### Equation lemmas for the table operations -/

theorem ctGet_nil (t : String) : ctGet [] t = 0 := rfl

theorem ctGet_cons (k : String) (v : Nat) (rest : FreqTable) (t : String) :
    ctGet ((k, v) :: rest) t = if k = t then v else ctGet rest t := rfl

theorem ctIncr_nil (t : String) (m : Nat) : ctIncr [] t m = [(t, m)] := rfl

theorem ctIncr_cons (k : String) (v : Nat) (rest : FreqTable) (t : String) (m : Nat) :
    ctIncr ((k, v) :: rest) t m =
      if k = t then (k, v + m) :: rest else (k, v) :: ctIncr rest t m := rfl

theorem ctKeys_nil : ctKeys [] = [] := rfl

theorem ctKeys_cons (k : String) (v : Nat) (rest : FreqTable) :
    ctKeys ((k, v) :: rest) = k :: ctKeys rest := rfl

/-! ### Lemmas about `ctIncr` -/

theorem ctGet_ctIncr (c : FreqTable) (t : String) (m : Nat) (s : String) :
    ctGet (ctIncr c t m) s = ctGet c s + (if t = s then m else 0) := by
  induction c with
  | nil =>
    rw [ctIncr_nil, ctGet_cons, ctGet_nil]
    split_ifs <;> omega
  | cons kv rest ih =>
    obtain ⟨k, v⟩ := kv
    rw [ctIncr_cons]
    by_cases h1 : k = t
    · rw [if_pos h1, ctGet_cons, ctGet_cons]
      subst h1
      by_cases h2 : k = s
      · simp only [if_pos h2] <;> omega
      · simp only [if_neg h2] <;> omega
    · rw [if_neg h1, ctGet_cons, ctGet_cons]
      by_cases h2 : k = s
      · have hts : ¬ t = s := fun h => h1 (h2.trans h.symm)
        simp only [if_pos h2, if_neg hts] <;> omega
      · simp only [if_neg h2]
        exact ih

theorem ctKeys_ctIncr (c : FreqTable) (t : String) (m : Nat) :
    ctKeys (ctIncr c t m) =
      if t ∈ ctKeys c then ctKeys c else ctKeys c ++ [t] := by
  induction c with
  | nil =>
    rw [ctIncr_nil, ctKeys_cons, ctKeys_nil, if_neg (List.not_mem_nil t)]
    rfl
  | cons kv rest ih =>
    obtain ⟨k, v⟩ := kv
    by_cases h1 : k = t
    · rw [ctIncr_cons, if_pos h1, ctKeys_cons, ctKeys_cons,
        if_pos (List.mem_cons.mpr (Or.inl h1.symm))]
    · have hne : ¬ t = k := fun h => h1 h.symm
      simp only [ctIncr_cons, if_neg h1, ctKeys_cons, ih, List.mem_cons]
      by_cases h2 : t ∈ ctKeys rest
      · rw [if_pos h2, if_pos (Or.inr h2)]
      · rw [if_neg h2, if_neg (by simp [hne, h2]), List.cons_append]

theorem mem_ctKeys_ctIncr (c : FreqTable) (t : String) (m : Nat) (s : String) :
    s ∈ ctKeys (ctIncr c t m) ↔ s ∈ ctKeys c ∨ s = t := by
  rw [ctKeys_ctIncr]
  by_cases h : t ∈ ctKeys c
  · rw [if_pos h]
    constructor
    · exact Or.inl
    · rintro (hs | rfl)
      · exact hs
      · exact h
  · rw [if_neg h]
    simp [List.mem_append]

theorem nodup_ctKeys_ctIncr (c : FreqTable) (t : String) (m : Nat)
    (h : (ctKeys c).Nodup) : (ctKeys (ctIncr c t m)).Nodup := by
  rw [ctKeys_ctIncr]
  by_cases h1 : t ∈ ctKeys c
  · rwa [if_pos h1]
  · rw [if_neg h1]
    exact h.append (List.nodup_singleton t)
      (fun a ha hat => h1 ((List.mem_singleton.mp hat) ▸ ha))

theorem sndSum_ctIncr (c : FreqTable) (t : String) (m : Nat) :
    ((ctIncr c t m).map Prod.snd).sum = (c.map Prod.snd).sum + m := by
  induction c with
  | nil => simp [ctIncr_nil]
  | cons kv rest ih =>
    obtain ⟨k, v⟩ := kv
    by_cases h1 : k = t
    · simp only [ctIncr_cons, if_pos h1, List.map_cons, List.sum_cons]
      omega
    · simp only [ctIncr_cons, if_neg h1, List.map_cons, List.sum_cons, ih]
      omega

theorem pos_ctIncr (c : FreqTable) (t : String) (m : Nat)
    (hc : ∀ p ∈ c, 1 ≤ p.2) (hm : 1 ≤ m) : ∀ p ∈ ctIncr c t m, 1 ≤ p.2 := by
  induction c with
  | nil =>
    intro p hp
    rw [ctIncr_nil, List.mem_singleton] at hp
    subst hp
    exact hm
  | cons kv rest ih =>
    obtain ⟨k, v⟩ := kv
    have hrest : ∀ q ∈ rest, 1 ≤ q.2 := fun q hq => hc q (List.mem_cons_of_mem _ hq)
    intro p hp
    rw [ctIncr_cons] at hp
    by_cases h1 : k = t
    · rw [if_pos h1] at hp
      rcases List.mem_cons.mp hp with h | h
      · subst h
        have hv : 1 ≤ v := hc (k, v) (List.mem_cons_self _ _)
        show 1 ≤ v + m
        omega
      · exact hrest p h
    · rw [if_neg h1] at hp
      rcases List.mem_cons.mp hp with h | h
      · subst h
        exact hc (k, v) (List.mem_cons_self _ _)
      · exact ih hrest p h

/-! ### Lemmas about `count_words` -/

theorem ctGet_foldl_count (seg : List String) :
    ∀ (acc : FreqTable) (t : String),
      ctGet (seg.foldl (fun acc w => ctIncr acc w 1) acc) t = ctGet acc t + seg.count t := by
  induction seg with
  | nil => intro acc t; simp
  | cons w ws ih =>
    intro acc t
    rw [List.foldl_cons, ih, ctGet_ctIncr, List.count_cons]
    by_cases h : w = t <;> simp [h] <;> omega

theorem ctGet_count_words (seg : List String) (t : String) :
    ctGet (count_words seg) t = seg.count t := by
  have h := ctGet_foldl_count seg [] t
  simpa [count_words, ctGet_nil] using h

theorem mem_ctKeys_foldl_count (seg : List String) :
    ∀ (acc : FreqTable) (s : String),
      s ∈ ctKeys (seg.foldl (fun acc w => ctIncr acc w 1) acc) ↔
        s ∈ ctKeys acc ∨ s ∈ seg := by
  induction seg with
  | nil => intro acc s; simp
  | cons w ws ih =>
    intro acc s
    rw [List.foldl_cons, ih, mem_ctKeys_ctIncr, List.mem_cons]
    tauto

theorem mem_ctKeys_count_words (seg : List String) (s : String) :
    s ∈ ctKeys (count_words seg) ↔ s ∈ seg := by
  have h := mem_ctKeys_foldl_count seg [] s
  simpa [count_words, ctKeys_nil] using h

theorem nodup_ctKeys_foldl_count (seg : List String) :
    ∀ (acc : FreqTable), (ctKeys acc).Nodup →
      (ctKeys (seg.foldl (fun acc w => ctIncr acc w 1) acc)).Nodup := by
  induction seg with
  | nil => intro acc h; exact h
  | cons w ws ih =>
    intro acc h
    rw [List.foldl_cons]
    exact ih _ (nodup_ctKeys_ctIncr _ _ _ h)

theorem nodup_ctKeys_count_words (seg : List String) :
    (ctKeys (count_words seg)).Nodup :=
  nodup_ctKeys_foldl_count seg [] (by rw [ctKeys_nil]; exact List.nodup_nil)

theorem sndSum_foldl_count (seg : List String) :
    ∀ (acc : FreqTable),
      ((seg.foldl (fun acc w => ctIncr acc w 1) acc).map Prod.snd).sum
        = (acc.map Prod.snd).sum + seg.length := by
  induction seg with
  | nil => intro acc; simp
  | cons w ws ih =>
    intro acc
    rw [List.foldl_cons, ih, sndSum_ctIncr, List.length_cons]
    omega

theorem sndSum_count_words (seg : List String) :
    ((count_words seg).map Prod.snd).sum = seg.length := by
  have h := sndSum_foldl_count seg []
  simpa [count_words] using h

theorem pos_foldl_count (seg : List String) :
    ∀ (acc : FreqTable), (∀ p ∈ acc, 1 ≤ p.2) →
      ∀ p ∈ seg.foldl (fun acc w => ctIncr acc w 1) acc, 1 ≤ p.2 := by
  induction seg with
  | nil => intro acc h; exact h
  | cons w ws ih =>
    intro acc h
    rw [List.foldl_cons]
    exact ih _ (pos_ctIncr _ _ _ h (by omega))

theorem pos_count_words (seg : List String) : ∀ p ∈ count_words seg, 1 ≤ p.2 :=
  pos_foldl_count seg [] (fun p hp => absurd hp (List.not_mem_nil p))

/-! ### Lemmas about `ctUpdate` -/

theorem ctUpdate_nil (a : FreqTable) : ctUpdate a [] = a := rfl

theorem ctUpdate_cons (a : FreqTable) (k : String) (v : Nat) (rest : FreqTable) :
    ctUpdate a ((k, v) :: rest) = ctUpdate (ctIncr a k v) rest := rfl

theorem entrySum_nil (t : String) : entrySum [] t = 0 := rfl

theorem entrySum_cons (k : String) (v : Nat) (rest : FreqTable) (t : String) :
    entrySum ((k, v) :: rest) t = (if k = t then v else 0) + entrySum rest t := by
  simp [entrySum]

theorem ctGet_ctUpdate (b : FreqTable) :
    ∀ (a : FreqTable) (t : String),
      ctGet (ctUpdate a b) t = ctGet a t + entrySum b t := by
  induction b with
  | nil => intro a t; simp [ctUpdate_nil, entrySum_nil]
  | cons kv rest ih =>
    obtain ⟨k, v⟩ := kv
    intro a t
    rw [ctUpdate_cons, ih, ctGet_ctIncr, entrySum_cons]
    omega

theorem entrySum_eq_zero_of_not_mem (b : FreqTable) (t : String) (h : t ∉ ctKeys b) :
    entrySum b t = 0 := by
  induction b with
  | nil => rfl
  | cons kv rest ih =>
    obtain ⟨k, v⟩ := kv
    rw [ctKeys_cons, List.mem_cons] at h
    push_neg at h
    have hk : ¬ k = t := fun hh => h.1 hh.symm
    rw [entrySum_cons, if_neg hk, ih h.2]

theorem entrySum_eq_ctGet (b : FreqTable) (t : String) (h : (ctKeys b).Nodup) :
    entrySum b t = ctGet b t := by
  induction b with
  | nil => rfl
  | cons kv rest ih =>
    obtain ⟨k, v⟩ := kv
    rw [ctKeys_cons] at h
    have hnd := List.nodup_cons.mp h
    rw [entrySum_cons, ctGet_cons]
    by_cases hk : k = t
    · have h0 : entrySum rest t = 0 :=
        entrySum_eq_zero_of_not_mem rest t (hk ▸ hnd.1)
      rw [if_pos hk, if_pos hk]
      omega
    · have hr := ih hnd.2
      rw [if_neg hk, if_neg hk]
      omega

theorem ctGet_ctUpdate_nodup (a b : FreqTable) (t : String) (h : (ctKeys b).Nodup) :
    ctGet (ctUpdate a b) t = ctGet a t + ctGet b t := by
  rw [ctGet_ctUpdate, entrySum_eq_ctGet b t h]

theorem mem_ctKeys_ctUpdate (b : FreqTable) :
    ∀ (a : FreqTable) (s : String),
      s ∈ ctKeys (ctUpdate a b) ↔ s ∈ ctKeys a ∨ s ∈ ctKeys b := by
  induction b with
  | nil => intro a s; simp [ctUpdate_nil, ctKeys_nil]
  | cons kv rest ih =>
    obtain ⟨k, v⟩ := kv
    intro a s
    rw [ctUpdate_cons, ih, mem_ctKeys_ctIncr, ctKeys_cons, List.mem_cons]
    tauto

theorem nodup_ctKeys_ctUpdate (b : FreqTable) :
    ∀ (a : FreqTable), (ctKeys a).Nodup → (ctKeys (ctUpdate a b)).Nodup := by
  induction b with
  | nil => intro a h; exact h
  | cons kv rest ih =>
    obtain ⟨k, v⟩ := kv
    intro a h
    rw [ctUpdate_cons]
    exact ih _ (nodup_ctKeys_ctIncr _ _ _ h)

theorem sndSum_ctUpdate (b : FreqTable) :
    ∀ (a : FreqTable),
      ((ctUpdate a b).map Prod.snd).sum
        = (a.map Prod.snd).sum + (b.map Prod.snd).sum := by
  induction b with
  | nil => intro a; simp [ctUpdate_nil]
  | cons kv rest ih =>
    obtain ⟨k, v⟩ := kv
    intro a
    rw [ctUpdate_cons, ih, sndSum_ctIncr]
    simp only [List.map_cons, List.sum_cons]
    omega

theorem pos_ctUpdate (b : FreqTable) :
    ∀ (a : FreqTable), (∀ p ∈ a, 1 ≤ p.2) → (∀ p ∈ b, 1 ≤ p.2) →
      ∀ p ∈ ctUpdate a b, 1 ≤ p.2 := by
  induction b with
  | nil => intro a ha _; exact ha
  | cons kv rest ih =>
    obtain ⟨k, v⟩ := kv
    intro a ha hb
    rw [ctUpdate_cons]
    refine ih _ (pos_ctIncr _ _ _ ha ?_) (fun q hq => hb q (List.mem_cons_of_mem _ hq))
    exact hb (k, v) (List.mem_cons_self _ _)

/-! ### Lemmas about `mergeAll` -/

theorem ctGet_foldl_update (tables : List FreqTable) :
    ∀ (acc : FreqTable) (t : String),
      ctGet (tables.foldl ctUpdate acc) t
        = ctGet acc t + (tables.map (fun tab => entrySum tab t)).sum := by
  induction tables with
  | nil => intro acc t; simp
  | cons tab rest ih =>
    intro acc t
    rw [List.foldl_cons, ih, ctGet_ctUpdate]
    simp only [List.map_cons, List.sum_cons]
    omega

theorem ctGet_mergeAll (tables : List FreqTable) (t : String)
    (h : ∀ tab ∈ tables, (ctKeys tab).Nodup) :
    ctGet (mergeAll tables) t = (tables.map (fun tab => ctGet tab t)).sum := by
  have h1 := ctGet_foldl_update tables [] t
  have h2 : tables.map (fun tab => entrySum tab t)
      = tables.map (fun tab => ctGet tab t) :=
    List.map_congr_left (fun tab htab => entrySum_eq_ctGet tab t (h tab htab))
  rw [h2] at h1
  simpa [mergeAll, ctGet_nil] using h1

theorem mem_ctKeys_foldl_update (tables : List FreqTable) :
    ∀ (acc : FreqTable) (s : String),
      s ∈ ctKeys (tables.foldl ctUpdate acc) ↔
        s ∈ ctKeys acc ∨ ∃ tab ∈ tables, s ∈ ctKeys tab := by
  induction tables with
  | nil => intro acc s; simp
  | cons tab rest ih =>
    intro acc s
    rw [List.foldl_cons, ih, mem_ctKeys_ctUpdate]
    constructor
    · rintro ((h | h) | ⟨tb, htb, hs⟩)
      · exact Or.inl h
      · exact Or.inr ⟨tab, List.mem_cons_self _ _, h⟩
      · exact Or.inr ⟨tb, List.mem_cons_of_mem _ htb, hs⟩
    · rintro (h | ⟨tb, htb, hs⟩)
      · exact Or.inl (Or.inl h)
      · rcases List.mem_cons.mp htb with rfl | htb2
        · exact Or.inl (Or.inr hs)
        · exact Or.inr ⟨tb, htb2, hs⟩

theorem mem_ctKeys_mergeAll (tables : List FreqTable) (s : String) :
    s ∈ ctKeys (mergeAll tables) ↔ ∃ tab ∈ tables, s ∈ ctKeys tab := by
  have h := mem_ctKeys_foldl_update tables [] s
  simpa [mergeAll, ctKeys_nil] using h

theorem nodup_ctKeys_foldl_update (tables : List FreqTable) :
    ∀ (acc : FreqTable), (ctKeys acc).Nodup →
      (ctKeys (tables.foldl ctUpdate acc)).Nodup := by
  induction tables with
  | nil => intro acc h; exact h
  | cons tab rest ih =>
    intro acc h
    rw [List.foldl_cons]
    exact ih _ (nodup_ctKeys_ctUpdate tab acc h)

theorem nodup_ctKeys_mergeAll (tables : List FreqTable) :
    (ctKeys (mergeAll tables)).Nodup :=
  nodup_ctKeys_foldl_update tables [] (by rw [ctKeys_nil]; exact List.nodup_nil)

theorem sndSum_foldl_update (tables : List FreqTable) :
    ∀ (acc : FreqTable),
      ((tables.foldl ctUpdate acc).map Prod.snd).sum
        = (acc.map Prod.snd).sum
          + (tables.map (fun tab => (tab.map Prod.snd).sum)).sum := by
  induction tables with
  | nil => intro acc; simp
  | cons tab rest ih =>
    intro acc
    rw [List.foldl_cons, ih, sndSum_ctUpdate]
    simp only [List.map_cons, List.sum_cons]
    omega

theorem sndSum_mergeAll (tables : List FreqTable) :
    ((mergeAll tables).map Prod.snd).sum
      = (tables.map (fun tab => (tab.map Prod.snd).sum)).sum := by
  have h := sndSum_foldl_update tables []
  simpa [mergeAll] using h

theorem pos_foldl_update (tables : List FreqTable) :
    ∀ (acc : FreqTable), (∀ p ∈ acc, 1 ≤ p.2) →
      (∀ tab ∈ tables, ∀ p ∈ tab, 1 ≤ p.2) →
      ∀ p ∈ tables.foldl ctUpdate acc, 1 ≤ p.2 := by
  induction tables with
  | nil => intro acc ha _; exact ha
  | cons tab rest ih =>
    intro acc ha htabs
    rw [List.foldl_cons]
    exact ih _ (pos_ctUpdate tab acc ha (htabs tab (List.mem_cons_self _ _)))
      (fun tb htb => htabs tb (List.mem_cons_of_mem _ htb))

theorem pos_mergeAll (tables : List FreqTable)
    (h : ∀ tab ∈ tables, ∀ p ∈ tab, 1 ≤ p.2) : ∀ p ∈ mergeAll tables, 1 ≤ p.2 :=
  pos_foldl_update tables [] (fun p hp => absurd hp (List.not_mem_nil p)) h

/-! ### Extensionality for frequency tables -/

theorem ctGet_eq_of_mem (c : FreqTable) :
    ∀ (t : String) (v : Nat), (ctKeys c).Nodup → (t, v) ∈ c → ctGet c t = v := by
  induction c with
  | nil => intro t v _ hmem; cases hmem
  | cons kv rest ih =>
    obtain ⟨k, w⟩ := kv
    intro t v hnd hmem
    rw [ctKeys_cons] at hnd
    have hnd2 := List.nodup_cons.mp hnd
    rcases List.mem_cons.mp hmem with h | h
    · obtain ⟨rfl, rfl⟩ := Prod.mk.injEq t v k w ▸ h
      rw [ctGet_cons, if_pos rfl]
    · have hkeys : t ∈ ctKeys rest := List.mem_map_of_mem Prod.fst h
      have htk : ¬ k = t := fun hh => hnd2.1 (hh ▸ hkeys)
      rw [ctGet_cons, if_neg htk]
      exact ih t v hnd2.2 h

theorem mem_of_ctKeys_mem (c : FreqTable) :
    ∀ (t : String), t ∈ ctKeys c → (t, ctGet c t) ∈ c := by
  induction c with
  | nil =>
    intro t h
    rw [ctKeys_nil] at h
    exact absurd h (List.not_mem_nil t)
  | cons kv rest ih =>
    obtain ⟨k, w⟩ := kv
    intro t h
    rw [ctKeys_cons] at h
    by_cases hk : k = t
    · subst hk
      rw [ctGet_cons, if_pos rfl]
      exact List.mem_cons_self _ _
    · have h2 : t ∈ ctKeys rest := by
        rcases List.mem_cons.mp h with h3 | h3
        · exact absurd h3.symm hk
        · exact h3
      rw [ctGet_cons, if_neg hk]
      exact List.mem_cons_of_mem _ (ih t h2)

theorem mem_table_iff (c : FreqTable) (t : String) (v : Nat)
    (hnd : (ctKeys c).Nodup) :
    (t, v) ∈ c ↔ t ∈ ctKeys c ∧ ctGet c t = v := by
  constructor
  · intro h
    exact ⟨List.mem_map_of_mem Prod.fst h, ctGet_eq_of_mem c t v hnd h⟩
  · rintro ⟨h1, rfl⟩
    exact mem_of_ctKeys_mem c t h1

theorem table_perm_of_ext (c₁ c₂ : FreqTable)
    (h1 : (ctKeys c₁).Nodup) (h2 : (ctKeys c₂).Nodup)
    (hkeys : ∀ t, t ∈ ctKeys c₁ ↔ t ∈ ctKeys c₂)
    (hget : ∀ t, ctGet c₁ t = ctGet c₂ t) : c₁.Perm c₂ := by
  have hn1 : c₁.Nodup := List.Nodup.of_map _ h1
  have hn2 : c₂.Nodup := List.Nodup.of_map _ h2
  rw [List.perm_ext_iff_of_nodup hn1 hn2]
  intro p
  obtain ⟨t, v⟩ := p
  rw [mem_table_iff c₁ t v h1, mem_table_iff c₂ t v h2, hkeys t, hget t]

/-! ### Lemmas about the partitioner -/

theorem splitWords_eq (words : List String) (n : Nat) :
    splitWords words n = (List.range n).map fun i =>
      if i = n - 1 then words.drop (i * (words.length / n))
      else pySlice words (i * (words.length / n)) ((i + 1) * (words.length / n)) := rfl

theorem take_sub (a b : Nat) (l : List String) (h : a ≤ b) :
    (l.take b).take a = l.take a := by
  rw [List.take_take]
  congr 1
  exact min_eq_left h

theorem take_append_slice (a b : Nat) (l : List String) (h : a ≤ b) :
    l.take a ++ (l.take b).drop a = l.take b := by
  nth_rewrite 1 [← take_sub a b l h]
  exact List.take_append_drop a (l.take b)

theorem flatten_slices (words : List String) (size : Nat) :
    ∀ m, ((List.range m).map
        (fun i => pySlice words (i * size) ((i + 1) * size))).flatten
      = words.take (m * size) := by
  intro m
  induction m with
  | zero => simp
  | succ m ih =>
    rw [List.range_succ, List.map_append, List.flatten_append, ih]
    simp only [List.map_cons, List.map_nil, List.flatten_cons, List.flatten_nil,
      List.append_nil]
    show words.take (m * size) ++ (words.take ((m + 1) * size)).drop (m * size)
      = words.take ((m + 1) * size)
    exact take_append_slice (m * size) ((m + 1) * size) words
      (Nat.mul_le_mul_right size (Nat.le_succ m))

theorem splitWords_flatten (words : List String) (n : Nat) (h : 0 < n) :
    (splitWords words n).flatten = words := by
  obtain ⟨m, rfl⟩ : ∃ m, n = m + 1 := ⟨n - 1, by omega⟩
  rw [splitWords_eq, List.range_succ, List.map_append, List.flatten_append]
  have hmap : (List.range m).map
      (fun i => if i = m + 1 - 1 then words.drop (i * (words.length / (m + 1)))
        else pySlice words (i * (words.length / (m + 1)))
          ((i + 1) * (words.length / (m + 1))))
      = (List.range m).map
        (fun i => pySlice words (i * (words.length / (m + 1)))
          ((i + 1) * (words.length / (m + 1)))) := by
    apply List.map_congr_left
    intro i hi
    rw [List.mem_range] at hi
    rw [if_neg (by omega)]
  rw [hmap, flatten_slices]
  simp only [List.map_cons, List.map_nil, List.flatten_cons, List.flatten_nil,
    List.append_nil]
  rw [if_pos (by omega : m = m + 1 - 1)]
  exact List.take_append_drop (m * (words.length / (m + 1))) words

theorem splitWords_length (words : List String) (n : Nat) :
    (splitWords words n).length = n := by
  rw [splitWords_eq, List.length_map, List.length_range]

theorem splitWords_getElem? (words : List String) (n i : Nat) (h : i < n - 1) :
    (splitWords words n)[i]? =
      some (pySlice words (i * (words.length / n)) ((i + 1) * (words.length / n))) := by
  rw [splitWords_eq, List.getElem?_map, List.getElem?_range (by omega : i < n)]
  simp only [Option.map_some']
  rw [if_neg (by omega)]

theorem splitWords_getElem?_last (words : List String) (n : Nat) (h : 0 < n) :
    (splitWords words n)[n - 1]? =
      some (words.drop ((n - 1) * (words.length / n))) := by
  rw [splitWords_eq, List.getElem?_map, List.getElem?_range (by omega : n - 1 < n)]
  simp

theorem splitWords_sum_lengths (words : List String) (n : Nat) (h : 0 < n) :
    ((splitWords words n).map List.length).sum = words.length := by
  rw [← List.length_flatten, splitWords_flatten words n h]

theorem splitWords_of_short (words : List String) (n : Nat) (h0 : 0 < n)
    (h : words.length < n) :
    splitWords words n = List.replicate (n - 1) [] ++ [words] := by
  obtain ⟨m, rfl⟩ : ∃ m, n = m + 1 := ⟨n - 1, by omega⟩
  have hs : words.length / (m + 1) = 0 := Nat.div_eq_of_lt h
  rw [splitWords_eq, hs, List.range_succ, List.map_append]
  simp only [List.map_cons, List.map_nil, Nat.mul_zero, Nat.add_sub_cancel]
  refine congrArg₂ (· ++ ·) ?_ ?_
  · refine List.eq_replicate.mpr ⟨by simp, ?_⟩
    intro b hb
    rw [List.mem_map] at hb
    obtain ⟨i, hi, rfl⟩ := hb
    rw [List.mem_range] at hi
    rw [if_neg (by omega)]
    simp [pySlice]
  · simp

/-! ### Lemmas about the sort -/

theorem sorted_rankSort (c : FreqTable) : (rankSort c).Sorted rankLE :=
  List.sorted_insertionSort rankLE c

theorem perm_rankSort (c : FreqTable) : (rankSort c).Perm c :=
  List.perm_insertionSort rankLE c

theorem rankSort_unique (c : FreqTable) (l : List (String × Nat))
    (hperm : l.Perm (rankSort c)) (hsort : l.Sorted rankLE) : l = rankSort c :=
  List.eq_of_perm_of_sorted hperm hsort (sorted_rankSort c)

/-! ### Whitespace-only inputs tokenize to nothing -/

theorem splitWsAux_all_ws (cs : List Char)
    (h : ∀ c ∈ cs, c.isWhitespace) : splitWsAux cs [] = [] := by
  induction cs with
  | nil => rfl
  | cons c rest ih =>
    have hc : c.isWhitespace := h c (List.mem_cons_self _ _)
    simp only [splitWsAux, hc, if_true, List.isEmpty_nil]
    exact ih (fun x hx => h x (List.mem_cons_of_mem _ hx))

theorem tokenize_all_ws (text : String)
    (h : ∀ c ∈ text.data, c.isWhitespace) : tokenize text = [] :=
  splitWsAux_all_ws text.data h

/-! ### Pipeline-level lemmas -/

theorem fdiv_toNat_eq (a n : Nat) : ((a : Int).fdiv (n : Int)).toNat = a / n := by
  rw [Int.fdiv_eq_tdiv (by positivity) (by positivity), ← Int.ofNat_tdiv]
  exact Int.toNat_ofNat _

theorem tables_nodup (segs : List (List String)) :
    ∀ tab ∈ segs.map count_words, (ctKeys tab).Nodup := by
  intro tab htab
  rw [List.mem_map] at htab
  obtain ⟨seg, _, rfl⟩ := htab
  exact nodup_ctKeys_count_words seg

theorem tables_pos (segs : List (List String)) :
    ∀ tab ∈ segs.map count_words, ∀ p ∈ tab, 1 ≤ p.2 := by
  intro tab htab
  rw [List.mem_map] at htab
  obtain ⟨seg, _, rfl⟩ := htab
  exact pos_count_words seg

theorem ctGet_final_count_segments (text : String) (n : Nat) (t : String) :
    ctGet (final_count text n) t
      = ((split_text text n).map (fun seg => seg.count t)).sum := by
  rw [final_count, ctGet_mergeAll _ t (tables_nodup _), List.map_map]
  exact congrArg List.sum
    (List.map_congr_left (fun seg _ => ctGet_count_words seg t))

theorem ctGet_final_count (text : String) (n : Nat) (h : 0 < n) (t : String) :
    ctGet (final_count text n) t = (tokenize text).count t := by
  rw [ctGet_final_count_segments]
  have h2 : ((split_text text n).map (fun seg => seg.count t)).sum
      = (split_text text n).flatten.count t := by
    rw [List.count_flatten]
  rw [h2, split_text, splitWords_flatten _ n h]

theorem mem_ctKeys_final_count (text : String) (n : Nat) (h : 0 < n) (t : String) :
    t ∈ ctKeys (final_count text n) ↔ t ∈ tokenize text := by
  rw [final_count, mem_ctKeys_mergeAll]
  constructor
  · rintro ⟨tab, htab, hmem⟩
    rw [List.mem_map] at htab
    obtain ⟨seg, hseg, rfl⟩ := htab
    rw [mem_ctKeys_count_words] at hmem
    have hfl : t ∈ (split_text text n).flatten := List.mem_flatten.mpr ⟨seg, hseg, hmem⟩
    rwa [split_text, splitWords_flatten _ n h] at hfl
  · intro ht
    have hfl : t ∈ (split_text text n).flatten := by
      rw [split_text, splitWords_flatten _ n h]
      exact ht
    obtain ⟨seg, hseg, hmem⟩ := List.mem_flatten.mp hfl
    exact ⟨count_words seg, List.mem_map_of_mem _ hseg,
      (mem_ctKeys_count_words seg t).mpr hmem⟩

theorem sndSum_final_count (text : String) (n : Nat) (h : 0 < n) :
    ((final_count text n).map Prod.snd).sum = (tokenize text).length := by
  rw [final_count, sndSum_mergeAll, List.map_map]
  have h1 : (split_text text n).map
      ((fun tab => (tab.map Prod.snd).sum) ∘ count_words)
      = (split_text text n).map List.length :=
    List.map_congr_left (fun seg _ => sndSum_count_words seg)
  rw [h1, split_text, splitWords_sum_lengths _ n h]

theorem pos_final_count (text : String) (n : Nat) :
    ∀ p ∈ final_count text n, 1 ≤ p.2 :=
  pos_mergeAll _ (tables_pos _)

theorem splitWords_nil (n : Nat) : splitWords [] n = List.replicate n [] := by
  rw [splitWords_eq]
  refine List.eq_replicate.mpr ⟨by simp, ?_⟩
  intro b hb
  rw [List.mem_map] at hb
  obtain ⟨i, _, rfl⟩ := hb
  split_ifs <;> simp [pySlice]

theorem mergeAll_replicate_nil (n : Nat) : mergeAll (List.replicate n []) = [] := by
  induction n with
  | zero => rfl
  | succ m ih =>
    rw [List.replicate_succ]
    exact ih

theorem ranked_keys_nodup (text : String) (n : Nat) :
    (ctKeys (rankedOutput text n)).Nodup := by
  have hperm : (ctKeys (rankedOutput text n)).Perm (ctKeys (final_count text n)) :=
    (perm_rankSort (final_count text n)).map Prod.fst
  exact hperm.nodup_iff.mpr (nodup_ctKeys_mergeAll _)

theorem mem_ctKeys_ranked (text : String) (n : Nat) (h : 0 < n) (t : String) :
    t ∈ ctKeys (rankedOutput text n) ↔ t ∈ tokenize text := by
  have hperm : (ctKeys (rankedOutput text n)).Perm (ctKeys (final_count text n)) :=
    (perm_rankSort (final_count text n)).map Prod.fst
  rw [hperm.mem_iff]
  exact mem_ctKeys_final_count text n h t

/-! ### The claims -/

/-- C1: for every input text and segment count N > 0, the merged table maps
each token to the sum over the N segments of its occurrences in that segment
(equivalently, its count in the whole token sequence), and the total of the
merged counts equals the number of whitespace-delimited tokens. -/
theorem C1_count_conservation (text : String) (n : Nat) (h : 0 < n) (t : String) :
    ctGet (final_count text n) t
        = ((split_text text n).map (fun seg => seg.count t)).sum ∧
    ctGet (final_count text n) t = (tokenize text).count t ∧
    ((final_count text n).map Prod.snd).sum = (tokenize text).length :=
  ⟨ctGet_final_count_segments text n t, ctGet_final_count text n h t,
    sndSum_final_count text n h⟩

theorem C1_witness :
    0 < 2 ∧ (ctGet (final_count "a b a c b a" 2) "a"
        = ((split_text "a b a c b a" 2).map (fun seg => seg.count "a")).sum ∧
      ctGet (final_count "a b a c b a" 2) "a" = (tokenize "a b a c b a").count "a" ∧
      ((final_count "a b a c b a" 2).map Prod.snd).sum
        = (tokenize "a b a c b a").length) :=
  ⟨by decide, C1_count_conservation "a b a c b a" 2 (by decide) "a"⟩

/-- C2: for every input text and N > 0, split_text yields exactly N segments
whose in-order concatenation is the whitespace token sequence; segment
i < N-1 is the slice tokens[i*base : (i+1)*base] with base = len(tokens)/N,
the last segment is tokens[(N-1)*base :], and the segment lengths sum to
the token count (the 5-token, N = 3 example giving lengths 1, 1, 3 is in
the witness). -/
theorem C2_partition_coverage (text : String) (n : Nat) (h : 0 < n) :
    (split_text text n).length = n ∧
    (split_text text n).flatten = tokenize text ∧
    (∀ i, i < n - 1 → (split_text text n)[i]? =
      some (pySlice (tokenize text) (i * ((tokenize text).length / n))
        ((i + 1) * ((tokenize text).length / n)))) ∧
    (split_text text n)[n - 1]? =
      some ((tokenize text).drop ((n - 1) * ((tokenize text).length / n))) ∧
    ((split_text text n).map List.length).sum = (tokenize text).length := by
  refine ⟨splitWords_length _ n, splitWords_flatten _ n h, ?_, ?_, ?_⟩
  · intro i hi
    exact splitWords_getElem? _ n i hi
  · exact splitWords_getElem?_last _ n h
  · exact splitWords_sum_lengths _ n h

theorem C2_witness :
    0 < 3 ∧ ((split_text "a b c d e" 3).length = 3 ∧
      (split_text "a b c d e" 3).flatten = tokenize "a b c d e" ∧
      (∀ i, i < 3 - 1 → (split_text "a b c d e" 3)[i]? =
        some (pySlice (tokenize "a b c d e")
          (i * ((tokenize "a b c d e").length / 3))
          ((i + 1) * ((tokenize "a b c d e").length / 3)))) ∧
      (split_text "a b c d e" 3)[3 - 1]? =
        some ((tokenize "a b c d e").drop
          ((3 - 1) * ((tokenize "a b c d e").length / 3))) ∧
      ((split_text "a b c d e" 3).map List.length).sum
        = (tokenize "a b c d e").length) ∧
    (split_text "a b c d e" 3).map List.length = [1, 1, 3] :=
  ⟨by decide, C2_partition_coverage "a b c d e" 3 (by decide), by decide⟩

/-- C3: the ranked output is sorted by the key (−count, token) ascending,
its tokens are distinct and pairwise strictly ordered (so the order is a
strict total order on them), and any sorted permutation of it equals it:
the ranked sequence of a merged table is uniquely determined. -/
theorem C3_rank_order (text : String) (n : Nat) :
    (rankedOutput text n).Sorted rankLE ∧
    (ctKeys (rankedOutput text n)).Nodup ∧
    (rankedOutput text n).Pairwise (fun a b => rankLE a b ∧ a ≠ b) ∧
    ∀ l, l.Perm (rankedOutput text n) → l.Sorted rankLE →
      l = rankedOutput text n := by
  refine ⟨sorted_rankSort _, ranked_keys_nodup text n, ?_, ?_⟩
  · exact List.Pairwise.and (sorted_rankSort _)
      (List.Nodup.of_map Prod.fst (ranked_keys_nodup text n))
  · intro l hp hs
    exact rankSort_unique _ l hp hs

/-- C8: the progress tracker's set is idempotent: setting the same index a
second time changes neither the state nor the snapshot count. -/
theorem C8_progress_idempotent (s : List Nat) (i : Nat) :
    progressSet (progressSet s i) i = progressSet s i ∧
    progressSnapshot (progressSet (progressSet s i) i)
      = progressSnapshot (progressSet s i) :=
  ⟨List.set_set 1 1 s i, congrArg progressSnapshot (List.set_set 1 1 s i)⟩

/-- C9: for whitespace-only (in particular empty) input and any N ≥ 1, the
partitioner returns N empty segments, the merged table, ranked output are
empty, and the written output is the header line alone. -/
theorem C9_empty_input (text : String) (n : Nat) (h0 : 0 < n)
    (hws : ∀ c ∈ text.data, c.isWhitespace) :
    tokenize text = [] ∧
    split_text text n = List.replicate n [] ∧
    final_count text n = [] ∧
    rankedOutput text n = [] ∧
    outputLines text n = ["Final consolidated word frequency:"] := by
  have ht : tokenize text = [] := tokenize_all_ws text hws
  have hsplit : split_text text n = List.replicate n [] := by
    rw [split_text, ht, splitWords_nil]
  have hfc : final_count text n = [] := by
    rw [final_count, hsplit, List.map_replicate]
    exact mergeAll_replicate_nil n
  have hro : rankedOutput text n = [] := by
    rw [rankedOutput, hfc]
    rfl
  refine ⟨ht, hsplit, hfc, hro, ?_⟩
  rw [outputLines, hro]
  rfl

theorem C9_witness :
    0 < 2 ∧ (∀ c ∈ (" \n\t " : String).data, c.isWhitespace) ∧
      (tokenize " \n\t " = [] ∧
        split_text " \n\t " 2 = List.replicate 2 [] ∧
        final_count " \n\t " 2 = [] ∧
        rankedOutput " \n\t " 2 = [] ∧
        outputLines " \n\t " 2 = ["Final consolidated word frequency:"]) :=
  ⟨by decide, by decide, C9_empty_input " \n\t " 2 (by decide) (by decide)⟩

/-- C4 counterexample: at segment count −1 (which is ≤ 0) the partitioner
does not fail at all: `range(-1)` is empty, so it silently returns an empty
segment list instead of reporting an InvalidArgument error. -/
theorem C4_counterexample :
    split_textE "a" (-1) = Except.ok [] ∧ (-1 : Int) ≤ 0 :=
  ⟨rfl, by decide⟩

/-- C4 amended: the code performs no argument validation. Segment count 0
fails with a ZeroDivisionError raised by the size computation; a negative
segment count does not fail at all but returns an empty segment list; every
positive segment count succeeds with the usual partition. -/
theorem C4_amended (text : String) :
    split_textE text 0 = Except.error "ZeroDivisionError" ∧
    (∀ n : Int, n < 0 → split_textE text n = Except.ok []) ∧
    (∀ n : Nat, 0 < n →
      split_textE text (n : Int) = Except.ok (split_text text n)) := by
  refine ⟨rfl, ?_, ?_⟩
  · intro n hn
    have hn0 : ¬ n = 0 := by omega
    have ht : n.toNat = 0 := by omega
    simp [split_textE, hn0, ht]
  · intro n hn
    have hn0 : ¬ (n : Int) = 0 := by omega
    simp only [split_textE]
    rw [if_neg hn0]
    congr 1
    rw [split_text, splitWords_eq]
    have htn : ((n : Nat) : Int).toNat = n := by omega
    rw [fdiv_toNat_eq, htn]
    apply List.map_congr_left
    intro i hi
    rw [List.mem_range] at hi
    by_cases hlast : i = n - 1
    · rw [if_pos (by omega : (i : Int) = (n : Int) - 1), if_pos hlast]
    · rw [if_neg (by omega : ¬ (i : Int) = (n : Int) - 1), if_neg hlast]

theorem C4_amended_witness :
    (split_textE "x y" 0 = Except.error "ZeroDivisionError" ∧
      (-2 : Int) < 0 ∧ split_textE "x y" (-2) = Except.ok []) ∧
    (0 < 2 ∧ split_textE "x y" ((2 : Nat) : Int)
      = Except.ok (split_text "x y" 2)) :=
  ⟨⟨(C4_amended "x y").1, by decide, (C4_amended "x y").2.1 (-2) (by decide)⟩,
    by decide, (C4_amended "x y").2.2 2 (by decide)⟩

/-- C5 counterexample: with 2 tokens and N = 3 the trailing (last) segment
is not empty — it holds all the tokens; the empty segments are the leading
ones, contradicting the claim that the trailing segments are the empty
ones. -/
theorem C5_counterexample :
    (tokenize "a b").length < 3 ∧
    split_text "a b" 3 = [[], [], ["a", "b"]] ∧
    (split_text "a b" 3).getLastD [] ≠ [] :=
  ⟨by decide, by decide, by decide⟩

/-- C5 amended: for N greater than the token count, every segment except the
last is empty and the last segment holds the whole token sequence; an empty
segment yields an empty frequency table, empty tables are identities of the
merge (so they contribute nothing, without error), and the merged table is
still the exact token count. -/
theorem C5_amended (text : String) (n : Nat) (h0 : 0 < n)
    (h : (tokenize text).length < n) :
    split_text text n = List.replicate (n - 1) [] ++ [tokenize text] ∧
    count_words [] = [] ∧
    (∀ a : FreqTable, ctUpdate a (count_words []) = a) ∧
    (∀ t, ctGet (final_count text n) t = (tokenize text).count t) := by
  refine ⟨?_, rfl, fun a => rfl, fun t => ctGet_final_count text n h0 t⟩
  rw [split_text]
  exact splitWords_of_short _ n h0 h

theorem C5_amended_witness :
    0 < 3 ∧ (tokenize "a b").length < 3 ∧
      (split_text "a b" 3 = List.replicate (3 - 1) [] ++ [tokenize "a b"] ∧
        count_words [] = [] ∧
        (∀ a : FreqTable, ctUpdate a (count_words []) = a) ∧
        (∀ t, ctGet (final_count "a b" 3) t = (tokenize "a b").count t)) :=
  ⟨by decide, by decide, C5_amended "a b" 3 (by decide) (by decide)⟩

/-- C6: the ranked output does not depend on the order in which the partial
frequency tables are collected: merging any permutation of the per-segment
tables and ranking gives the identical ranked sequence and identical output
lines (and the pipeline itself is a pure function of text and N). -/
theorem C6_order_determinism (text : String) (n : Nat) (tables : List FreqTable)
    (hperm : tables.Perm ((split_text text n).map count_words)) :
    rankSort (mergeAll tables) = rankedOutput text n ∧
    "Final consolidated word frequency:"
        :: (rankSort (mergeAll tables)).map (fun p => p.1 ++ ": " ++ toString p.2)
      = outputLines text n := by
  have hT := tables_nodup (split_text text n)
  have htab : ∀ tab ∈ tables, (ctKeys tab).Nodup :=
    fun tab h => hT tab (hperm.mem_iff.mp h)
  have hmergePerm : (mergeAll tables).Perm
      (mergeAll ((split_text text n).map count_words)) := by
    apply table_perm_of_ext
    · exact nodup_ctKeys_mergeAll tables
    · exact nodup_ctKeys_mergeAll _
    · intro t
      rw [mem_ctKeys_mergeAll, mem_ctKeys_mergeAll]
      constructor
      · rintro ⟨tab, h1, h2⟩
        exact ⟨tab, hperm.mem_iff.mp h1, h2⟩
      · rintro ⟨tab, h1, h2⟩
        exact ⟨tab, hperm.mem_iff.mpr h1, h2⟩
    · intro t
      rw [ctGet_mergeAll tables t htab, ctGet_mergeAll _ t hT]
      exact (hperm.map (fun tab => ctGet tab t)).sum_eq
  have hsorteq : rankSort (mergeAll tables) = rankedOutput text n := by
    apply rankSort_unique
    · exact ((perm_rankSort (mergeAll tables)).trans hmergePerm).trans
        (perm_rankSort (mergeAll ((split_text text n).map count_words))).symm
    · exact sorted_rankSort _
  refine ⟨hsorteq, ?_⟩
  rw [outputLines, hsorteq]

theorem C6_witness :
    ([count_words ["c", "b", "a"], count_words ["a", "b", "a"]].Perm
        ((split_text "a b a c b a" 2).map count_words)) ∧
      (rankSort (mergeAll [count_words ["c", "b", "a"], count_words ["a", "b", "a"]])
          = rankedOutput "a b a c b a" 2 ∧
        "Final consolidated word frequency:"
            :: (rankSort (mergeAll [count_words ["c", "b", "a"],
                count_words ["a", "b", "a"]])).map
              (fun p => p.1 ++ ": " ++ toString p.2)
          = outputLines "a b a c b a" 2) :=
  ⟨by decide, C6_order_determinism "a b a c b a" 2 _ (by decide)⟩

/-- C7: merging sums counts per token; the binary merge is commutative and
associative in its effect on every count, and merging any permutation of a
collection of tables gives the same counts. -/
theorem C7_merge_algebra (tables : List FreqTable)
    (h : ∀ tab ∈ tables, (ctKeys tab).Nodup) (t : String) :
    ctGet (mergeAll tables) t = (tables.map (fun tab => ctGet tab t)).sum ∧
    (∀ a b : FreqTable, (ctKeys a).Nodup → (ctKeys b).Nodup →
      ctGet (ctUpdate a b) t = ctGet (ctUpdate b a) t) ∧
    (∀ a b c : FreqTable, (ctKeys b).Nodup → (ctKeys c).Nodup →
      ctGet (ctUpdate (ctUpdate a b) c) t
        = ctGet (ctUpdate a (ctUpdate b c)) t) ∧
    (∀ tables2 : List FreqTable, tables2.Perm tables →
      ctGet (mergeAll tables2) t = ctGet (mergeAll tables) t) := by
  refine ⟨ctGet_mergeAll tables t h, ?_, ?_, ?_⟩
  · intro a b ha hb
    rw [ctGet_ctUpdate_nodup a b t hb, ctGet_ctUpdate_nodup b a t ha]
    omega
  · intro a b c hb hc
    have h1 := ctGet_ctUpdate c (ctUpdate a b) t
    have h2 := ctGet_ctUpdate b a t
    have h3 := ctGet_ctUpdate (ctUpdate b c) a t
    have h4 : entrySum (ctUpdate b c) t = ctGet (ctUpdate b c) t :=
      entrySum_eq_ctGet _ t (nodup_ctKeys_ctUpdate c b hb)
    have h5 := ctGet_ctUpdate_nodup b c t hc
    have h6 : entrySum b t = ctGet b t := entrySum_eq_ctGet b t hb
    have h7 : entrySum c t = ctGet c t := entrySum_eq_ctGet c t hc
    omega
  · intro tables2 hperm
    have h2 : ∀ tab ∈ tables2, (ctKeys tab).Nodup :=
      fun tab htab => h tab (hperm.mem_iff.mp htab)
    rw [ctGet_mergeAll tables2 t h2, ctGet_mergeAll tables t h]
    exact (hperm.map (fun tab => ctGet tab t)).sum_eq

theorem C7_witness :
    (∀ tab ∈ [[("a", 1)], [("b", 2)]], (ctKeys tab).Nodup) ∧
      (ctGet (mergeAll [[("a", 1)], [("b", 2)]]) "a"
          = ([[("a", 1)], [("b", 2)]].map (fun tab => ctGet tab "a")).sum ∧
        (∀ a b : FreqTable, (ctKeys a).Nodup → (ctKeys b).Nodup →
          ctGet (ctUpdate a b) "a" = ctGet (ctUpdate b a) "a") ∧
        (∀ a b c : FreqTable, (ctKeys b).Nodup → (ctKeys c).Nodup →
          ctGet (ctUpdate (ctUpdate a b) c) "a"
            = ctGet (ctUpdate a (ctUpdate b c)) "a") ∧
        (∀ tables2 : List FreqTable, tables2.Perm [[("a", 1)], [("b", 2)]] →
          ctGet (mergeAll tables2) "a"
            = ctGet (mergeAll [[("a", 1)], [("b", 2)]]) "a")) :=
  ⟨by decide, C7_merge_algebra [[("a", 1)], [("b", 2)]] (by decide) "a"⟩

/-- C10: every ranked entry has a strictly positive count, the ranked tokens
are pairwise distinct, and they are exactly the distinct tokens of the
input: nothing with count zero is emitted and nothing is duplicated. -/
theorem C10_positive_unique (text : String) (n : Nat) (h : 0 < n) :
    (∀ p ∈ rankedOutput text n, 1 ≤ p.2) ∧
    (ctKeys (rankedOutput text n)).Nodup ∧
    (∀ t, t ∈ ctKeys (rankedOutput text n) ↔ t ∈ tokenize text) := by
  refine ⟨?_, ranked_keys_nodup text n, mem_ctKeys_ranked text n h⟩
  intro p hp
  have hp2 : p ∈ final_count text n := (perm_rankSort _).mem_iff.mp hp
  exact pos_final_count text n p hp2

theorem C10_witness :
    0 < 2 ∧ ((∀ p ∈ rankedOutput "a b a c b a" 2, 1 ≤ p.2) ∧
      (ctKeys (rankedOutput "a b a c b a" 2)).Nodup ∧
      (∀ t, t ∈ ctKeys (rankedOutput "a b a c b a" 2)
        ↔ t ∈ tokenize "a b a c b a")) :=
  ⟨by decide, C10_positive_unique "a b a c b a" 2 (by decide)⟩

theorem C3_witness :
    (rankedOutput "b a b" 1).Sorted rankLE ∧
    (ctKeys (rankedOutput "b a b" 1)).Nodup ∧
    (rankedOutput "b a b" 1).Pairwise (fun a b => rankLE a b ∧ a ≠ b) ∧
    ∀ l, l.Perm (rankedOutput "b a b" 1) → l.Sorted rankLE →
      l = rankedOutput "b a b" 1 :=
  C3_rank_order "b a b" 1

theorem C8_witness :
    progressSet (progressSet (progressInit 3) 1) 1
      = progressSet (progressInit 3) 1 ∧
    progressSnapshot (progressSet (progressSet (progressInit 3) 1) 1)
      = progressSnapshot (progressSet (progressInit 3) 1) :=
  C8_progress_idempotent (progressInit 3) 1
